import Mathlib
/-!
Verification development for the mibao-family-stats contribution
statistics generator (scripts/generate_stats.py).

The embedding models:
* calendar dates (`Date`, proleptic Gregorian, matching Python's
  `datetime.date` ordinal arithmetic),
* the canonical per-day contribution mapping (`CMap`, an association
  list mirroring the Python `dict` / `defaultdict(int)`),
* the aggregation in `get_all_contributions` (calendar day buckets are
  written by assignment, manually scanned commits by increment),
* `calculate_streak` (the 365-iteration backward walk from today) and
* `calculate_max_streak` (lexicographic key sort followed by a single
  scan over the positive-count days, parsing each key).
-/

/-- Calendar date, mirroring Python `datetime.date` fields. -/
structure Date where
  year : Nat
  month : Nat
  day : Nat
deriving DecidableEq, Repr

/-- Python `calendar.isleap` / the Gregorian leap rule used by `datetime`. -/
def isLeap (y : Nat) : Bool :=
  (y % 4 == 0 && y % 100 != 0) || y % 400 == 0

/-- Number of days in a month, as in `datetime`. -/
def daysInMonth (y : Nat) (m : Nat) : Nat :=
  match m with
  | 2 => if isLeap y then 29 else 28
  | 4 => 30
  | 6 => 30
  | 9 => 30
  | 11 => 30
  | _ => 31

/-- Days in year `y` before the first of month `m`. -/
def daysBeforeMonth (y : Nat) : Nat → Nat
  | 0 => 0
  | 1 => 0
  | Nat.succ m => daysBeforeMonth y m + daysInMonth y m

/-- Days before January 1 of year `y` (Python `datetime._days_before_year`). -/
def daysBeforeYear (y : Nat) : Nat :=
  365 * (y - 1) + (y - 1) / 4 - (y - 1) / 100 + (y - 1) / 400

/-- Python `date.toordinal`: day number with 0001-01-01 as day 1. -/
def toOrdinal (d : Date) : Nat :=
  daysBeforeYear d.year + daysBeforeMonth d.year d.month + d.day

/-- A well-formed `datetime.date` value (`MINYEAR = 1`, `MAXYEAR = 9999`). -/
def Date.Valid (d : Date) : Prop :=
  1 ≤ d.year ∧ d.year ≤ 9999 ∧ 1 ≤ d.month ∧ d.month ≤ 12 ∧
    1 ≤ d.day ∧ d.day ≤ daysInMonth d.year d.month

instance (d : Date) : Decidable d.Valid := by
  unfold Date.Valid; infer_instance

/-- The previous calendar day (`d - timedelta(days=1)`). -/
def predDate (d : Date) : Date :=
  if 1 < d.day then ⟨d.year, d.month, d.day - 1⟩
  else if 1 < d.month then ⟨d.year, d.month - 1, daysInMonth d.year (d.month - 1)⟩
  else ⟨d.year - 1, 12, 31⟩

/-- `d - timedelta(days=n)`, as `n`-fold predecessor. -/
def subDays (d : Date) : Nat → Date
  | 0 => d
  | Nat.succ n => predDate (subDays d n)

/-- Digit character, `chr(48 + n)`. -/
def digitChar (n : Nat) : Char := Char.ofNat (48 + n)

/-- Two-digit zero-padded rendering (the `%m` / `%d` directives). -/
def pad2 (n : Nat) : List Char := [digitChar (n / 10), digitChar (n % 10)]

/-- Four-digit zero-padded rendering (the `%Y` directive). -/
def pad4 (n : Nat) : List Char :=
  [digitChar (n / 1000), digitChar (n / 100 % 10), digitChar (n / 10 % 10), digitChar (n % 10)]

/-- Character list of `d.strftime("%Y-%m-%d")`. -/
def dateChars (d : Date) : List Char :=
  pad4 d.year ++ '-' :: (pad2 d.month ++ '-' :: pad2 d.day)

/-- `d.strftime("%Y-%m-%d")`. -/
def dateToString (d : Date) : String := String.mk (dateChars d)

/-- Python string `<` comparison (lexicographic on code points). -/
def lexLt : List Char → List Char → Bool
  | [], [] => false
  | [], _ :: _ => true
  | _ :: _, [] => false
  | a :: as, b :: bs => if a < b then true else if b < a then false else lexLt as bs

/-- Python string `<=`, the order used by `sorted` on the key strings. -/
def strle (s t : String) : Prop := lexLt t.data s.data = false

instance : DecidableRel strle := fun s t =>
  inferInstanceAs (Decidable (lexLt t.data s.data = false))

/-- Split a character list at every `-`, as `strptime` consumes the
literal `-` separators of the format `"%Y-%m-%d"`. -/
def splitDash : List Char → List (List Char)
  | [] => [[]]
  | c :: rest =>
    if c = '-' then [] :: splitDash rest
    else
      match splitDash rest with
      | [] => [[c]]
      | g :: gs => (c :: g) :: gs

/-- ASCII digit test, the character class matched by the `%Y`, `%m`,
`%d` directives. -/
def isDigitCh (c : Char) : Bool := 48 ≤ c.toNat && c.toNat ≤ 57

/-- Numeric value of a digit string. -/
def digitsToNat (l : List Char) : Nat :=
  l.foldl (fun a c => 10 * a + (c.toNat - 48)) 0

/-- `datetime.strptime(s, "%Y-%m-%d")`, returning `none` where Python
raises `ValueError`: the string must be digits-dash-digits-dash-digits
with exactly 4 year digits (the `%Y` pattern of CPython matches exactly
four) and 1-2 month/day digits, and must denote a real date in years
1..9999. -/
def parseDate (s : String) : Option Date :=
  match splitDash s.data with
  | [ys, ms, ds] =>
    if ys.length != 4 || !ys.all isDigitCh then none
    else if ms.length < 1 || 2 < ms.length || !ms.all isDigitCh then none
    else if ds.length < 1 || 2 < ds.length || !ds.all isDigitCh then none
    else
      let y := digitsToNat ys
      let mo := digitsToNat ms
      let dy := digitsToNat ds
      if 1 ≤ y ∧ 1 ≤ mo ∧ mo ≤ 12 ∧ 1 ≤ dy ∧ dy ≤ daysInMonth y mo then
        some ⟨y, mo, dy⟩
      else none
  | _ => none

/-- A key string is canonical when it parses and re-renders to itself,
i.e. it is a valid zero-padded ISO `YYYY-MM-DD` date string. -/
def isCanonical (s : String) : Bool :=
  match parseDate s with
  | some d => dateToString d == s
  | none => false

/-- Ordinal denoted by a (parseable) key string. -/
def ordOf (s : String) : Int :=
  match parseDate s with
  | some d => (toOrdinal d : Int)
  | none => 0

/-- The canonical date → count mapping (`contributions_by_date`), an
association list standing for the Python dict in insertion order. -/
abbrev CMap : Type := List (String × Nat)

/-- `m.get(k, 0)` / `defaultdict(int)` read. -/
def lookupD (m : CMap) (k : String) : Nat :=
  match m with
  | [] => 0
  | e :: rest => if e.1 = k then e.2 else lookupD rest k

/-- `m[k] = v`: overwrite in place, append when absent. -/
def setKey (m : CMap) (k : String) (v : Nat) : CMap :=
  match m with
  | [] => [(k, v)]
  | e :: rest => if e.1 = k then (k, v) :: rest else e :: setKey rest k v

/-- `m[k] += 1` on a `defaultdict(int)`. -/
def bumpKey (m : CMap) (k : String) : CMap :=
  setKey m k (lookupD m k + 1)

/-- `sum(m.values())`. -/
def sumValues (m : CMap) : Nat :=
  (List.map Prod.snd m).sum

/-- `commit["commit"]["author"]["date"][:10]`. -/
def take10 (s : String) : String := String.mk (s.data.take 10)

/-- The record returned by `get_all_contributions`. -/
structure ContribResult where
  contributions_by_date : CMap
  total_contributions : Nat
  official_count : Nat
  manual_count : Nat

/-- One manual-scan step: skip a commit whose truncated date is empty,
otherwise increment that date and the manual counter. -/
def commitStep (acc : CMap × Nat) (ts : String) : CMap × Nat :=
  let cd := take10 ts
  if cd = String.mk [] then acc else (bumpKey acc.1 cd, acc.2 + 1)

/-- `get_all_contributions`, restricted to its aggregation logic: the
calendar day buckets are written with `contributions_by_date[date] = count`,
then every manually scanned commit adds one to its (truncated) date. -/
def get_all_contributions (calendarDays : List (String × Nat))
    (officialTotal : Nat) (commitLists : List (List String)) : ContribResult :=
  let m0 : CMap := calendarDays.foldl (fun m dy => setKey m dy.1 dy.2) []
  let p := commitLists.foldl (fun acc cl => cl.foldl commitStep acc) (m0, 0)
  { contributions_by_date := p.1
    total_contributions := sumValues p.1
    official_count := officialTotal
    manual_count := p.2 }

/-- The contribution map produced from one calendar-bucket source and
one timestamped-commit source. -/
def aggregate (buckets : List (String × Nat)) (events : List String) : CMap :=
  (get_all_contributions buckets 0 [events]).contributions_by_date

/-- Loop body of `calculate_streak`: `for i in range(365)` walking
backwards from today; a positive day extends the streak, a zero day at
`i > 0` breaks, the zero day at `i = 0` is passed over. -/
def streakIter (m : CMap) (t : Date) : Nat → Nat → Nat → Nat
  | _, 0, streak => streak
  | i, Nat.succ fuel, streak =>
    if 0 < lookupD m (dateToString (subDays t i)) then
      streakIter m t (i + 1) fuel (streak + 1)
    else if 0 < i then streak
    else streakIter m t (i + 1) fuel streak

/-- `calculate_streak`; `t` is the date of the `datetime.now()` reading
taken at the start of the function. -/
def calculate_streak (m : CMap) (t : Date) : Nat :=
  streakIter m t 0 365 0

/-- `sorted(contributions_by_date.keys())`: Python sorts the key
strings lexicographically. -/
def sortKeys (l : List String) : List String :=
  List.insertionSort strle l

/-- Loop body of `calculate_max_streak`: scan the sorted keys; a key
with positive count is parsed (`none` models the `ValueError` raised on
an unparseable key) and extends the streak exactly when its ordinal is
one past the previous positive day's ordinal. -/
def maxStreakScan (m : CMap) : List String → Option Int → Nat → Nat → Option Nat
  | [], _, _, maxS => some maxS
  | s :: rest, prev, cur, maxS =>
    if 0 < lookupD m s then
      match parseDate s with
      | none => none
      | some d =>
        let o : Int := (toOrdinal d : Int)
        let cur2 := match prev with
          | some p => if o - p = 1 then cur + 1 else 1
          | none => 1
        maxStreakScan m rest (some o) cur2 (max maxS cur2)
    else maxStreakScan m rest prev cur maxS

/-- `calculate_max_streak`; the `Option` result is `none` exactly when
the Python function raises. -/
def calculate_max_streak (m : CMap) : Option Nat :=
  maxStreakScan m (sortKeys (List.map Prod.fst m)) none 0 0

/-- A map carrying one contribution on each of the `n` days ending at
`t`: a contiguous run reaching back `n` days. -/
def runMap (t : Date) (n : Nat) : CMap :=
  (List.range n).map (fun i => (dateToString (subDays t i), 1))

/-- Number of commit records in a list that resolve to the (non-empty)
date key `k` after truncation to 10 characters. -/
def eventCount (k : String) : List String → Nat
  | [] => 0
  | e :: es => (if take10 e = k ∧ ¬k = String.mk [] then 1 else 0) + eventCount k es

def digitsVal : List Nat → Nat
  | [] => 0
  | d :: rest => d * 10 ^ rest.length + digitsVal rest

/-- Chronological (year, month, day) lexicographic order. -/
def DateLt (a b : Date) : Prop :=
  a.year < b.year ∨ (a.year = b.year ∧
    (a.month < b.month ∨ (a.month = b.month ∧ a.day < b.day)))

/-- Chronological comparison of key strings by the dates they denote.
This is the spec-side ordering for the refinement comparison: sort the
keys by the calendar dates their strings denote (via their ordinals),
rather than by raw string comparison. -/
def dateOrderLe (s t : String) : Prop := ordOf s ≤ ordOf t

instance : DecidableRel dateOrderLe := fun s t =>
  inferInstanceAs (Decidable (ordOf s ≤ ordOf t))

/-- Sorting the keys by their denoted dates (the parse-then-sort-by-date
embedding of `sorted(contributions_by_date.keys())`). -/
def sortKeysByDate (l : List String) : List String :=
  List.insertionSort dateOrderLe l

/-- Spec-side single scan over the qualifying days' ordinals: extend the
running streak when the current date is exactly one calendar day after
the previous one, otherwise reset to 1; track the maximum observed. -/
def specGo : List Int → Option Int → Nat → Nat → Nat
  | [], _, _, mx => mx
  | o :: rest, p, c, mx =>
    let c2 := match p with
      | some q => if o - q = 1 then c + 1 else 1
      | none => 1
    specGo rest (some o) c2 (max mx c2)

/-- Ordinals of the dates present in the map with count > 0 (the
qualifying dates of the spec's description). -/
def qualifyingOrds (m : CMap) : List Int :=
  m.filterMap (fun e =>
    if 0 < e.2 then (parseDate e.1).map (fun d => (toOrdinal d : Int)) else none)

/-- Integer order used to sort the qualifying dates chronologically. -/
def intLe (a b : Int) : Prop := a ≤ b

instance : DecidableRel intLe := fun a b =>
  inferInstanceAs (Decidable (a ≤ b))

/-- The spec's description of `max_streak`: take only dates present
with count > 0, sort them ascending (chronologically), scan once
extending on exact successor days and resetting otherwise, and return
the maximum observed (0 when no qualifying date exists). -/
def maxStreakSpec (m : CMap) : Nat :=
  specGo (List.insertionSort intLe (qualifyingOrds m)) none 0 0

theorem streakIter_succ (m : CMap) (t : Date) (i fuel s : Nat) :
    streakIter m t i (Nat.succ fuel) s =
      if 0 < lookupD m (dateToString (subDays t i)) then
        streakIter m t (i + 1) fuel (s + 1)
      else if 0 < i then s
      else streakIter m t (i + 1) fuel s := rfl

theorem streakIter_le (m : CMap) (t : Date) :
    ∀ (fuel i s : Nat), streakIter m t i fuel s ≤ s + fuel := by
  intro fuel
  induction fuel with
  | zero => intro i s; simp [streakIter]
  | succ fuel ih =>
    intro i s
    rw [streakIter_succ]
    split_ifs with h1 h2
    · exact le_trans (ih (i + 1) (s + 1)) (by omega)
    · omega
    · exact le_trans (ih (i + 1) s) (by omega)

theorem streakIter_all_pos (m : CMap) (t : Date) :
    ∀ (fuel i s : Nat),
      (∀ j, j < fuel → 0 < lookupD m (dateToString (subDays t (i + j)))) →
      streakIter m t i fuel s = s + fuel := by
  intro fuel
  induction fuel with
  | zero => intro i s _; simp [streakIter]
  | succ fuel ih =>
    intro i s h
    have h0 : 0 < lookupD m (dateToString (subDays t i)) := by
      have := h 0 (Nat.succ_pos fuel)
      simpa using this
    rw [streakIter_succ, if_pos h0]
    have := ih (i + 1) (s + 1) (fun j hj => by
      have := h (j + 1) (by omega)
      have e : i + (j + 1) = i + 1 + j := by omega
      rwa [e] at this)
    omega

theorem calculate_streak_le (m : CMap) (t : Date) : calculate_streak m t ≤ 365 := by
  have := streakIter_le m t 365 0 0
  simpa [calculate_streak] using this

theorem calculate_streak_all_pos (m : CMap) (t : Date)
    (h : ∀ i, i < 365 → 0 < lookupD m (dateToString (subDays t i))) :
    calculate_streak m t = 365 := by
  have := streakIter_all_pos m t 365 0 0 (fun j hj => by
    have := h j hj
    simpa using this)
  simpa [calculate_streak] using this

theorem lookupD_const_one (m : CMap) (k : String)
    (hv : ∀ e ∈ m, e.2 = 1) (hk : k ∈ List.map Prod.fst m) :
    lookupD m k = 1 := by
  induction m with
  | nil => simp at hk
  | cons e rest ih =>
    by_cases he : e.1 = k
    · simp [lookupD, he, hv e (by simp)]
    · have : k ∈ List.map Prod.fst rest := by
        rcases List.mem_map.mp hk with ⟨x, hx, hxe⟩
        rcases List.mem_cons.mp hx with h1 | h1
        · exact absurd (h1 ▸ hxe) he
        · exact List.mem_map.mpr ⟨x, h1, hxe⟩
      simp [lookupD, he, ih (fun a ha => hv a (by simp [ha])) this]

theorem runMap_lookup (t : Date) (n i : Nat) (hi : i < n) :
    lookupD (runMap t n) (dateToString (subDays t i)) = 1 := by
  apply lookupD_const_one
  · intro e he
    rcases List.mem_map.mp he with ⟨j, _, hje⟩
    simp [← hje]
  · rw [runMap, List.map_map]
    exact List.mem_map.mpr ⟨i, List.mem_range.mpr hi, rfl⟩

theorem calculate_streak_runMap (t : Date) :
    calculate_streak (runMap t 400) t = 365 := by
  apply calculate_streak_all_pos
  intro i hi
  rw [runMap_lookup t 400 i (by omega)]
  omega

/-- C1: a zero count at `today` itself (present as 0 or absent) does not
terminate the backward walk of `calculate_streak`: the loop passes over
day `i = 0` and continues evaluating from `today - 1` (the loop state
`streakIter m t 1 364 0`), while a zero-count day at any offset `i > 0`
terminates the walk at the streak accumulated so far; in particular the
map `{today: 0, today-1: 3, today-2: 2}` with today = 2024-06-10 yields
streak 2, and a map whose only positive day is `today - 1` yields 1. -/
theorem c1_today_zero_forgiven :
    (∀ (m : CMap) (t : Date), lookupD m (dateToString t) = 0 →
        calculate_streak m t = streakIter m t 1 364 0) ∧
    (∀ (m : CMap) (t : Date) (i fuel s : Nat), 0 < i →
        lookupD m (dateToString (subDays t i)) = 0 →
        streakIter m t i (fuel + 1) s = s) ∧
    calculate_streak
      [(("2024-06-10" : String), 0), (("2024-06-09" : String), 3),
        (("2024-06-08" : String), 2)] ⟨2024, 6, 10⟩ = 2 ∧
    calculate_streak [(("2024-06-09" : String), 5)] ⟨2024, 6, 10⟩ = 1 := by
  refine ⟨?_, ?_, by decide, by decide⟩
  · intro m t h
    have e : calculate_streak m t = streakIter m t 0 (Nat.succ 364) 0 := rfl
    rw [e, streakIter_succ]
    have e0 : subDays t 0 = t := rfl
    rw [e0, h]
    simp
  · intro m t i fuel s hi h
    have e : (fuel + 1) = Nat.succ fuel := rfl
    rw [e, streakIter_succ, h]
    simp [hi]

/-- C1 witness: the first conjunct applied to the scenario map at
today = 2024-06-10, whose `today` entry is 0. -/
theorem c1_witness :
    calculate_streak
      [(("2024-06-10" : String), 0), (("2024-06-09" : String), 3),
        (("2024-06-08" : String), 2)] ⟨2024, 6, 10⟩ =
      streakIter
        [(("2024-06-10" : String), 0), (("2024-06-09" : String), 3),
          (("2024-06-08" : String), 2)] ⟨2024, 6, 10⟩ 1 364 0 :=
  c1_today_zero_forgiven.1 _ ⟨2024, 6, 10⟩ (by decide)

/-- C3: `calculate_streak` looks back at most 365 days: its result never
exceeds 365; when every day in the 365-day window (offsets 0..364 from
today) has a positive count it returns exactly 365; in particular on a
contiguous 400-day run ending at today it returns 365, not 400. -/
theorem c3_lookback_bound :
    (∀ (m : CMap) (t : Date), calculate_streak m t ≤ 365) ∧
    (∀ (m : CMap) (t : Date),
        (∀ i, i < 365 → 0 < lookupD m (dateToString (subDays t i))) →
        calculate_streak m t = 365) ∧
    (∀ t : Date, calculate_streak (runMap t 400) t = 365) :=
  ⟨calculate_streak_le, calculate_streak_all_pos, calculate_streak_runMap⟩

/-- C3 witness: the bounded-result conjunct applied to the concrete
400-day run ending at 2024-06-10. -/
theorem c3_witness :
    calculate_streak (runMap ⟨2024, 6, 10⟩ 400) ⟨2024, 6, 10⟩ = 365 :=
  c3_lookback_bound.2.1 (runMap ⟨2024, 6, 10⟩ 400) ⟨2024, 6, 10⟩
    (fun i hi => by rw [runMap_lookup ⟨2024, 6, 10⟩ 400 i (by omega)]; omega)

/-- C5 counterexample: the claim says the result of two runs on the same
ContributionMap is the same regardless of when the runs occur, `today`
being caller-supplied and never read from the system clock. In the code
`calculate_streak` takes only the map and reads `datetime.now()` itself
(line 310), so with the clock at 2024-06-10 the map {2024-06-10: 1}
yields streak 1 while the identical map yields 0 with the clock at
2024-06-12: the result is not a function of the map alone. -/
theorem c5_counterexample :
    calculate_streak [(("2024-06-10" : String), 1)] ⟨2024, 6, 10⟩ ≠
      calculate_streak [(("2024-06-10" : String), 1)] ⟨2024, 6, 12⟩ := by
  decide

/-- C5 (amended): `today` is read from the system clock inside
`calculate_streak` rather than injected by the caller, so the result
varies with the clock; the function is deterministic only once the
clock reading is fixed: runs with equal maps and equal clock dates give
equal results. -/
theorem c5_deterministic_given_clock :
    ∀ (m1 m2 : CMap) (t1 t2 : Date), m1 = m2 → t1 = t2 →
      calculate_streak m1 t1 = calculate_streak m2 t2 := by
  intro m1 m2 t1 t2 hm ht
  rw [hm, ht]

/-- C5 witness: determinism at a concrete map and clock date. -/
theorem c5_witness :
    calculate_streak [(("2024-06-10" : String), 1)] ⟨2024, 6, 10⟩ =
      calculate_streak [(("2024-06-10" : String), 1)] ⟨2024, 6, 10⟩ :=
  c5_deterministic_given_clock _ _ _ _ rfl rfl

/-- C7: on the empty ContributionMap both operations return well-defined
zeros for every clock date: the streak walk finds no positive day and
returns 0, and the max-streak scan returns `some 0` (no error). -/
theorem c7_empty_map :
    (∀ t : Date, calculate_streak [] t = 0) ∧
    calculate_max_streak [] = some 0 :=
  ⟨fun _ => rfl, rfl⟩

theorem lookupD_setKey (m : CMap) (k k2 : String) (v : Nat) :
    lookupD (setKey m k v) k2 = if k = k2 then v else lookupD m k2 := by
  induction m with
  | nil => simp [setKey, lookupD]
  | cons e rest ih =>
    by_cases he : e.1 = k
    · by_cases h : k = k2
      · simp [setKey, lookupD, he, h]
      · have hne : ¬e.1 = k2 := fun hh => h (he.symm.trans hh)
        simp [setKey, lookupD, he, h, hne]
    · by_cases h2 : e.1 = k2
      · have hne : ¬k = k2 := fun hh => he (h2.trans hh.symm)
        have hne2 : ¬k2 = k := fun hh => hne hh.symm
        simp [setKey, lookupD, he, h2, hne, hne2]
      · simp [setKey, lookupD, he, h2, ih]

theorem lookupD_bumpKey (m : CMap) (k k2 : String) :
    lookupD (bumpKey m k) k2 = if k = k2 then lookupD m k + 1 else lookupD m k2 := by
  rw [bumpKey, lookupD_setKey]

theorem lookupD_commitStep (acc : CMap × Nat) (e : String) (k : String) :
    lookupD (commitStep acc e).1 k =
      lookupD acc.1 k + (if take10 e = k ∧ ¬k = String.mk [] then 1 else 0) := by
  by_cases h : take10 e = String.mk []
  · have hnot : ¬(take10 e = k ∧ ¬k = String.mk []) := by
      rintro ⟨h1, h2⟩
      exact h2 (h1.symm.trans h)
    simp only [commitStep, h, if_pos, hnot, if_neg, not_false_eq_true, and_false, ite_false]
    simp [hnot]
    exact fun hh => hh.symm
  · by_cases hk : take10 e = k
    · have hpos : take10 e = k ∧ ¬k = String.mk [] :=
        ⟨hk, fun hh => h (hk.trans hh)⟩
      simp [commitStep, h, lookupD_bumpKey, hk, hpos]
    · have hnot : ¬(take10 e = k ∧ ¬k = String.mk []) := fun hh => hk hh.1
      simp [commitStep, h, lookupD_bumpKey, hk, hnot]

theorem lookupD_foldl_commits (k : String) :
    ∀ (cl : List String) (acc : CMap × Nat),
      lookupD (cl.foldl commitStep acc).1 k = lookupD acc.1 k + eventCount k cl := by
  intro cl
  induction cl with
  | nil => intro acc; simp [eventCount]
  | cons e es ih =>
    intro acc
    rw [List.foldl_cons, ih (commitStep acc e), lookupD_commitStep, eventCount]
    omega

theorem eventCount_append (k : String) (l1 l2 : List String) :
    eventCount k (l1 ++ l2) = eventCount k l1 + eventCount k l2 := by
  induction l1 with
  | nil => simp [eventCount]
  | cons e es ih => rw [List.cons_append, eventCount, eventCount, ih]; omega

theorem aggregate_events_additive (bs : List (String × Nat)) (es : List String) (k : String) :
    lookupD (aggregate bs es) k = lookupD (aggregate bs []) k + eventCount k es := by
  have e1 : aggregate bs es = (es.foldl commitStep
      (bs.foldl (fun m dy => setKey m dy.1 dy.2) [], 0)).1 := rfl
  have e2 : aggregate bs [] = bs.foldl (fun m dy => setKey m dy.1 dy.2) [] := rfl
  rw [e1, e2, lookupD_foldl_commits]

theorem aggregate_nil_nil (k : String) : lookupD (aggregate [] []) k = 0 := rfl

/-- C4 counterexample: the claim says counts are summed across sources
and never overwritten, so that aggregating the duplicated source list
[S, S] doubles every count of aggregating [S]. With S the single
calendar DayBucket {2024-06-10: 2}, the code (line 127) writes buckets
by assignment: aggregating the bucket twice leaves the count at 2,
while the claimed doubling would give 4. -/
theorem c4_counterexample :
    lookupD (aggregate ([(("2024-06-10" : String), 2)] ++ [(("2024-06-10" : String), 2)]) [])
        ("2024-06-10") ≠
      lookupD (aggregate [(("2024-06-10" : String), 2)] []) ("2024-06-10") +
        lookupD (aggregate [(("2024-06-10" : String), 2)] []) ("2024-06-10") := by
  decide

/-- C4 (amended): only the manually scanned commit Events are merged
additively: for every date the aggregated count is the bucket-assigned
base plus the number of events resolving to that date, so duplicating
an event source doubles its contribution, while calendar DayBuckets are
written by assignment (a later bucket for the same date overwrites).
The concrete scenario holds: the DayBucket {2024-06-10: 2} together
with two Events on 2024-06-10 merges to {2024-06-10: 4}. -/
theorem c4_events_sum_buckets_assign :
    (∀ (bs : List (String × Nat)) (es : List String) (k : String),
        lookupD (aggregate bs es) k = lookupD (aggregate bs []) k + eventCount k es) ∧
    (∀ (es : List String) (k : String),
        lookupD (aggregate [] (es ++ es)) k = 2 * lookupD (aggregate [] es) k) ∧
    lookupD (aggregate [(("2024-06-10" : String), 2)]
        [("2024-06-10T08:00:00Z"), ("2024-06-10T09:00:00Z")]) ("2024-06-10") = 4 := by
  refine ⟨aggregate_events_additive, ?_, by decide⟩
  intro es k
  rw [aggregate_events_additive, aggregate_events_additive [] es k,
    aggregate_nil_nil, eventCount_append]
  omega

/-- C10: the record returned by `get_all_contributions` is internally
consistent: its `total_contributions` field is computed as the sum of
the per-day counts of its `contributions_by_date` mapping, whatever the
calendar days and manually scanned commit lists were. -/
theorem c10_total_is_sum :
    ∀ (cal : List (String × Nat)) (ot : Nat) (cls : List (List String)),
      (get_all_contributions cal ot cls).total_contributions =
        sumValues ((get_all_contributions cal ot cls).contributions_by_date) :=
  fun _ _ _ => rfl

theorem maxStreakScan_isSome (m : CMap) :
    ∀ (l : List String) (p : Option Int) (c x : Nat),
      (∀ s ∈ l, (parseDate s).isSome = true) →
      (maxStreakScan m l p c x).isSome = true := by
  intro l
  induction l with
  | nil => intro p c x _; simp [maxStreakScan]
  | cons s rest ih =>
    intro p c x h
    rw [maxStreakScan]
    by_cases hp : 0 < lookupD m s
    · rw [if_pos hp]
      rcases Option.isSome_iff_exists.mp (h s (by simp)) with ⟨d, hd⟩
      rw [hd]
      exact ih _ _ _ (fun t ht => h t (by simp [ht]))
    · rw [if_neg hp]
      exact ih _ _ _ (fun t ht => h t (by simp [ht]))

/-- C6 counterexample: a commit record whose date is non-empty but
unparseable (here `garbage-xxT08:00:00Z`, truncated to `garbage-xx`)
is NOT skipped by the aggregator: it is counted under the garbage key,
and `calculate_max_streak` on the resulting map raises (modelled as
`none`), aborting the run instead of merely undercounting. -/
theorem c6_counterexample :
    lookupD (aggregate [] [("garbage-xxT08:00:00Z")]) ("garbage-xx") = 1 ∧
    calculate_max_streak (aggregate [] [("garbage-xxT08:00:00Z")]) = none := by
  constructor <;> decide

/-- C6 (amended): the aggregator skips a commit record only when its
date field truncated to 10 characters is empty; any other record,
parseable or not, is aggregated. Aggregation itself never fails, but
`calculate_max_streak` completes without raising only when every key of
the map parses: on a positive-count unparseable key it raises
(`strptime`, line 332), aborting the run. -/
theorem c6_skip_only_empty :
    (∀ (bs : List (String × Nat)) (e : String) (es : List String),
        take10 e = String.mk [] → aggregate bs (e :: es) = aggregate bs es) ∧
    (∀ m : CMap, (∀ k ∈ List.map Prod.fst m, (parseDate k).isSome = true) →
        (calculate_max_streak m).isSome = true) := by
  constructor
  · intro bs e es h
    have e1 : aggregate bs (e :: es) = ((e :: es).foldl commitStep
        (bs.foldl (fun m dy => setKey m dy.1 dy.2) [], 0)).1 := rfl
    have e2 : aggregate bs es = (es.foldl commitStep
        (bs.foldl (fun m dy => setKey m dy.1 dy.2) [], 0)).1 := rfl
    rw [e1, e2, List.foldl_cons]
    have : commitStep (bs.foldl (fun m dy => setKey m dy.1 dy.2) [], 0) e =
        (bs.foldl (fun m dy => setKey m dy.1 dy.2) [], 0) := by
      simp [commitStep, h]
    rw [this]
  · intro m h
    apply maxStreakScan_isSome
    intro s hs
    exact h s ((List.mem_insertionSort strle).mp hs)

/-- C6 witness: the no-raise conjunct applied to a concrete map whose
keys all parse. -/
theorem c6_witness :
    (calculate_max_streak [(("2024-06-10" : String), 1)]).isSome = true :=
  c6_skip_only_empty.2 [(("2024-06-10" : String), 1)] (by decide)

theorem lexLt_asymm : ∀ (a b : List Char), lexLt a b = true → lexLt b a = true → False
  | [], [] => by simp [lexLt]
  | [], _ :: _ => by simp [lexLt]
  | _ :: _, [] => by simp [lexLt]
  | x :: xs, y :: ys => by
    intro h1 h2
    rw [lexLt] at h1 h2
    rcases lt_trichotomy x y with h | h | h
    · rw [if_neg (lt_asymm h), if_pos h] at h2
      exact absurd h2 (by simp)
    · subst h
      rw [if_neg (lt_irrefl x), if_neg (lt_irrefl x)] at h1 h2
      exact lexLt_asymm xs ys h1 h2
    · rw [if_neg (lt_asymm h), if_pos h] at h1
      exact absurd h1 (by simp)

theorem lexLt_trichotomy : ∀ (a b : List Char), lexLt a b = true ∨ a = b ∨ lexLt b a = true
  | [], [] => Or.inr (Or.inl rfl)
  | [], _ :: _ => Or.inl (by simp [lexLt])
  | _ :: _, [] => Or.inr (Or.inr (by simp [lexLt]))
  | x :: xs, y :: ys => by
    rcases lt_trichotomy x y with h | h | h
    · exact Or.inl (by rw [lexLt, if_pos h])
    · subst h
      rcases lexLt_trichotomy xs ys with h2 | h2 | h2
      · exact Or.inl (by rw [lexLt, if_neg (lt_irrefl x), if_neg (lt_irrefl x)]; exact h2)
      · exact Or.inr (Or.inl (by rw [h2]))
      · exact Or.inr (Or.inr (by rw [lexLt, if_neg (lt_irrefl x), if_neg (lt_irrefl x)]; exact h2))
    · exact Or.inr (Or.inr (by rw [lexLt, if_pos h]))

theorem lexLt_trans : ∀ (a b c : List Char),
    lexLt a b = true → lexLt b c = true → lexLt a c = true
  | [], b, c => fun h1 h2 => by
    cases c with
    | nil =>
      cases b with
      | nil => simp [lexLt] at h1
      | cons y ys => simp [lexLt] at h2
    | cons z zs => simp [lexLt]
  | _ :: _, [], _ => fun h1 _ => by simp [lexLt] at h1
  | _ :: _, _ :: _, [] => fun _ h2 => by simp [lexLt] at h2
  | x :: xs, y :: ys, z :: zs => fun h1 h2 => by
    rw [lexLt] at h1 h2 ⊢
    rcases lt_trichotomy x y with hxy | hxy | hxy
    · rcases lt_trichotomy y z with hyz | hyz | hyz
      · rw [if_pos (lt_trans hxy hyz)]
      · subst hyz; rw [if_pos hxy]
      · rw [if_neg (lt_asymm hyz), if_pos hyz] at h2
        exact absurd h2 (by simp)
    · subst hxy
      rcases lt_trichotomy x z with hyz | hyz | hyz
      · rw [if_pos hyz]
      · subst hyz
        rw [if_neg (lt_irrefl x), if_neg (lt_irrefl x)] at h1 h2 ⊢
        exact lexLt_trans xs ys zs h1 h2
      · rw [if_neg (lt_asymm hyz), if_pos hyz] at h2
        exact absurd h2 (by simp)
    · rw [if_neg (lt_asymm hxy), if_pos hxy] at h1
      exact absurd h1 (by simp)

theorem string_data_eq {s t : String} (h : s.data = t.data) : s = t := by
  cases s
  cases t
  exact congrArg String.mk h

instance : IsTrans String strle := by
  refine ⟨fun s t u h1 h2 => ?_⟩
  simp only [strle] at h1 h2 ⊢
  cases hb : lexLt u.data s.data with
  | false => rfl
  | true =>
    exfalso
    rcases lexLt_trichotomy u.data t.data with hut | hut | hut
    · simp [h2] at hut
    · rw [hut] at hb
      simp [h1] at hb
    · have h3 := lexLt_trans t.data u.data s.data hut hb
      simp [h1] at h3

instance : IsTotal String strle := by
  refine ⟨fun s t => ?_⟩
  simp only [strle]
  cases hb : lexLt t.data s.data with
  | false => exact Or.inl rfl
  | true =>
    right
    cases hc : lexLt s.data t.data with
    | false => rfl
    | true => exact absurd (lexLt_asymm _ _ hb hc) (fun h => h)

instance : IsAntisymm String strle := by
  refine ⟨fun s t h1 h2 => ?_⟩
  simp only [strle] at h1 h2
  rcases lexLt_trichotomy s.data t.data with h | h | h
  · simp [h2] at h
  · exact string_data_eq h
  · simp [h1] at h

theorem maxStreakScan_cons (m : CMap) (s : String) (rest : List String)
    (p : Option Int) (c x : Nat) :
    maxStreakScan m (s :: rest) p c x =
      if 0 < lookupD m s then
        match parseDate s with
        | none => none
        | some d =>
          let o : Int := (toOrdinal d : Int)
          let c2 := match p with
            | some q => if o - q = 1 then c + 1 else 1
            | none => 1
          maxStreakScan m rest (some o) c2 (max x c2)
      else maxStreakScan m rest p c x := rfl

theorem maxStreakScan_congr (m1 m2 : CMap) :
    ∀ (l : List String) (p : Option Int) (c x : Nat),
      (∀ s ∈ l, lookupD m1 s = lookupD m2 s) →
      maxStreakScan m1 l p c x = maxStreakScan m2 l p c x := by
  intro l
  induction l with
  | nil => intro p c x _; rfl
  | cons s rest ih =>
    intro p c x h
    rw [maxStreakScan_cons, maxStreakScan_cons, h s (by simp)]
    by_cases hp : 0 < lookupD m2 s
    · rw [if_pos hp, if_pos hp]
      cases parseDate s with
      | none => rfl
      | some d => exact ih _ _ _ (fun t ht => h t (by simp [ht]))
    · rw [if_neg hp, if_neg hp]
      exact ih _ _ _ (fun t ht => h t (by simp [ht]))

theorem maxStreakScan_filter (m : CMap) :
    ∀ (l : List String) (p : Option Int) (c x : Nat),
      maxStreakScan m l p c x =
        maxStreakScan m (l.filter (fun s => decide (0 < lookupD m s))) p c x := by
  intro l
  induction l with
  | nil => intro p c x; rfl
  | cons s rest ih =>
    intro p c x
    by_cases hp : 0 < lookupD m s
    · rw [List.filter_cons_of_pos (by simpa using hp), maxStreakScan_cons,
        maxStreakScan_cons, if_pos hp, if_pos hp]
      cases parseDate s with
      | none => rfl
      | some d => exact ih _ _ _
    · rw [List.filter_cons_of_neg (by simpa using hp), maxStreakScan_cons, if_neg hp]
      exact ih _ _ _

theorem lookupD_append_zero (m : CMap) (d : String)
    (hd : d ∉ List.map Prod.fst m) :
    ∀ k, lookupD (m ++ [(d, 0)]) k = if k = d then 0 else lookupD m k := by
  induction m with
  | nil => intro k; simp [lookupD]
  | cons e rest ih =>
    intro k
    by_cases he : e.1 = k
    · have hkd : ¬k = d := by
        intro hh
        exact hd (by simp only [List.map_cons, List.mem_cons]; exact Or.inl (he.trans hh).symm)
      simp [lookupD, he, hkd]
    · have hd2 : d ∉ List.map Prod.fst rest := fun hh => hd (by simp [hh])
      simp [lookupD, he, ih hd2]

/-- C8: inserting an absent key with count 0 never changes
`calculate_max_streak`: the sorted scan skips zero-count keys before
ever parsing them, so the result (including whether the scan raises) is
unchanged. -/
theorem c8_zero_entry_no_change :
    ∀ (m : CMap) (d : String), d ∉ List.map Prod.fst m →
      calculate_max_streak (m ++ [(d, 0)]) = calculate_max_streak m := by
  intro m d hd
  have hlk := lookupD_append_zero m d hd
  have hkeys : List.map Prod.fst (m ++ [(d, 0)]) = List.map Prod.fst m ++ [d] := by
    simp
  simp only [calculate_max_streak]
  rw [maxStreakScan_filter, maxStreakScan_filter m]
  have hmem : ∀ s ∈ List.map Prod.fst m, ¬s = d := by
    intro s hs hh
    exact hd (hh ▸ hs)
  have hF : (sortKeys (List.map Prod.fst (m ++ [(d, 0)]))).filter
        (fun s => decide (0 < lookupD (m ++ [(d, 0)]) s)) =
      (sortKeys (List.map Prod.fst m)).filter
        (fun s => decide (0 < lookupD m s)) := by
    have s1 : List.Sorted strle ((sortKeys (List.map Prod.fst (m ++ [(d, 0)]))).filter
        (fun s => decide (0 < lookupD (m ++ [(d, 0)]) s))) :=
      List.Sorted.filter _ (List.sorted_insertionSort strle _)
    have s2 : List.Sorted strle ((sortKeys (List.map Prod.fst m)).filter
        (fun s => decide (0 < lookupD m s))) :=
      List.Sorted.filter _ (List.sorted_insertionSort strle _)
    have p1 : List.Perm (sortKeys (List.map Prod.fst (m ++ [(d, 0)])))
        (List.map Prod.fst m ++ [d]) := by
      rw [hkeys]
      exact List.perm_insertionSort strle _
    have p2 := p1.filter (fun s => decide (0 < lookupD (m ++ [(d, 0)]) s))
    rw [List.filter_append] at p2
    have hzero : List.filter (fun s => decide (0 < lookupD (m ++ [(d, 0)]) s)) [d] = [] := by
      have hz : lookupD (m ++ [(d, 0)]) d = 0 := by rw [hlk d, if_pos rfl]
      simp [List.filter, hz]
    have hsame : List.filter (fun s => decide (0 < lookupD (m ++ [(d, 0)]) s))
          (List.map Prod.fst m) =
        List.filter (fun s => decide (0 < lookupD m s)) (List.map Prod.fst m) := by
      apply List.filter_congr
      intro k hk
      rw [hlk k, if_neg (hmem k hk)]
    rw [hzero, hsame, List.append_nil] at p2
    have p3 : List.Perm (List.filter (fun s => decide (0 < lookupD m s)) (List.map Prod.fst m))
        ((sortKeys (List.map Prod.fst m)).filter (fun s => decide (0 < lookupD m s))) :=
      ((List.perm_insertionSort strle _).filter _).symm
    exact List.eq_of_perm_of_sorted (p2.trans p3) s1 s2
  rw [hF]
  apply maxStreakScan_congr
  intro s hs
  have hs2 : s ∈ List.map Prod.fst m :=
    (List.mem_insertionSort strle).mp (List.mem_of_mem_filter hs)
  rw [hlk s, if_neg (hmem s hs2)]

/-- C8 witness: adding the absent zero-count key 2024-05-05 to the map
{2024-01-01: 1} leaves the maximum streak unchanged. -/
theorem c8_witness :
    calculate_max_streak ([(("2024-01-01" : String), 1)] ++ [(("2024-05-05" : String), 0)]) =
      calculate_max_streak [(("2024-01-01" : String), 1)] :=
  c8_zero_entry_no_change [(("2024-01-01" : String), 1)] ("2024-05-05") (by decide)

theorem digitChar_lt_iff (i j : Nat) (hi : i ≤ 9) (hj : j ≤ 9) :
    digitChar i < digitChar j ↔ i < j := by
  interval_cases i <;> interval_cases j <;> decide

theorem digitChar_eq_iff (i j : Nat) (hi : i ≤ 9) (hj : j ≤ 9) :
    digitChar i = digitChar j ↔ i = j := by
  interval_cases i <;> interval_cases j <;> decide

theorem digitsVal_lt (l : List Nat) (h : ∀ x ∈ l, x ≤ 9) : digitsVal l < 10 ^ l.length := by
  induction l with
  | nil => simp [digitsVal]
  | cons d rest ih =>
    have hd : d ≤ 9 := h d (by simp)
    have hv : digitsVal rest < 10 ^ rest.length := ih (fun x hx => h x (by simp [hx]))
    calc digitsVal (d :: rest) = d * 10 ^ rest.length + digitsVal rest := rfl
      _ < d * 10 ^ rest.length + 10 ^ rest.length := by omega
      _ = (d + 1) * 10 ^ rest.length := by ring
      _ ≤ 10 * 10 ^ rest.length := Nat.mul_le_mul_right _ (by omega)
      _ = 10 ^ (d :: rest).length := by rw [List.length_cons]; ring

theorem lexLt_digitsMap : ∀ (xs ys : List Nat), xs.length = ys.length →
    (∀ x ∈ xs, x ≤ 9) → (∀ y ∈ ys, y ≤ 9) →
    (lexLt (List.map digitChar xs) (List.map digitChar ys) = true ↔ digitsVal xs < digitsVal ys)
  | [], [], _, _, _ => by simp [lexLt, digitsVal]
  | [], y :: ys, h, _, _ => by simp at h
  | x :: xs, [], h, _, _ => by simp at h
  | x :: xs, y :: ys, h, hx, hy => by
    have hlen : xs.length = ys.length := by simpa using h
    have hx9 : x ≤ 9 := hx x (by simp)
    have hy9 : y ≤ 9 := hy y (by simp)
    have hxs : ∀ a ∈ xs, a ≤ 9 := fun a ha => hx a (by simp [ha])
    have hys : ∀ a ∈ ys, a ≤ 9 := fun a ha => hy a (by simp [ha])
    have hvx : digitsVal xs < 10 ^ xs.length := digitsVal_lt xs hxs
    have hvy : digitsVal ys < 10 ^ ys.length := digitsVal_lt ys hys
    simp only [List.map, lexLt, digitsVal]
    rcases lt_trichotomy x y with hc | hc | hc
    · rw [if_pos ((digitChar_lt_iff x y hx9 hy9).mpr hc)]
      simp only [true_iff]
      calc x * 10 ^ xs.length + digitsVal xs < x * 10 ^ xs.length + 10 ^ xs.length := by omega
        _ = (x + 1) * 10 ^ xs.length := by ring
        _ ≤ y * 10 ^ xs.length := Nat.mul_le_mul_right _ (by omega)
        _ = y * 10 ^ ys.length := by rw [hlen]
        _ ≤ y * 10 ^ ys.length + digitsVal ys := Nat.le_add_right _ _
    · subst hc
      rw [if_neg (lt_irrefl _), if_neg (lt_irrefl _)]
      rw [lexLt_digitsMap xs ys hlen hxs hys]
      rw [hlen]
      exact (Nat.add_lt_add_iff_left).symm
    · have hn1 : ¬digitChar x < digitChar y :=
        fun hh => absurd ((digitChar_lt_iff x y hx9 hy9).mp hh) (by omega)
      have hp2 : digitChar y < digitChar x := (digitChar_lt_iff y x hy9 hx9).mpr hc
      rw [if_neg hn1, if_pos hp2]
      refine iff_of_false (by simp) (not_lt.mpr (le_of_lt ?_))
      calc y * 10 ^ ys.length + digitsVal ys < y * 10 ^ ys.length + 10 ^ ys.length := by omega
        _ = (y + 1) * 10 ^ ys.length := by ring
        _ ≤ x * 10 ^ ys.length := Nat.mul_le_mul_right _ (by omega)
        _ = x * 10 ^ xs.length := by rw [hlen]
        _ ≤ x * 10 ^ xs.length + digitsVal xs := Nat.le_add_right _ _

theorem lexLt_pad2_iff (a b : Nat) (ha : a ≤ 99) (hb : b ≤ 99) :
    lexLt (pad2 a) (pad2 b) = true ↔ a < b := by
  have e1 : pad2 a = List.map digitChar [a / 10, a % 10] := rfl
  have e2 : pad2 b = List.map digitChar [b / 10, b % 10] := rfl
  rw [e1, e2, lexLt_digitsMap [a / 10, a % 10] [b / 10, b % 10] rfl
    (by intro x hx; simp at hx; omega) (by intro x hx; simp at hx; omega)]
  have v1 : digitsVal [a / 10, a % 10] = a := by simp [digitsVal]; omega
  have v2 : digitsVal [b / 10, b % 10] = b := by simp [digitsVal]; omega
  rw [v1, v2]

theorem lexLt_pad4_iff (a b : Nat) (ha : a ≤ 9999) (hb : b ≤ 9999) :
    lexLt (pad4 a) (pad4 b) = true ↔ a < b := by
  have e1 : pad4 a = List.map digitChar [a / 1000, a / 100 % 10, a / 10 % 10, a % 10] := rfl
  have e2 : pad4 b = List.map digitChar [b / 1000, b / 100 % 10, b / 10 % 10, b % 10] := rfl
  rw [e1, e2, lexLt_digitsMap [a / 1000, a / 100 % 10, a / 10 % 10, a % 10]
    [b / 1000, b / 100 % 10, b / 10 % 10, b % 10] rfl
    (by intro x hx; simp at hx; omega) (by intro x hx; simp at hx; omega)]
  have v1 : digitsVal [a / 1000, a / 100 % 10, a / 10 % 10, a % 10] = a := by
    simp [digitsVal]; omega
  have v2 : digitsVal [b / 1000, b / 100 % 10, b / 10 % 10, b % 10] = b := by
    simp [digitsVal]; omega
  rw [v1, v2]

theorem lexLt_append_eqlen : ∀ (xs ys r1 r2 : List Char), xs.length = ys.length →
    lexLt (xs ++ r1) (ys ++ r2) = (lexLt xs ys || (!(lexLt ys xs) && lexLt r1 r2))
  | [], [], r1, r2, _ => by simp [lexLt]
  | [], y :: ys, r1, r2, h => by simp at h
  | x :: xs, [], r1, r2, h => by simp at h
  | x :: xs, y :: ys, r1, r2, h => by
    have hlen : xs.length = ys.length := by simpa using h
    simp only [List.cons_append, lexLt]
    rcases lt_trichotomy x y with hc | hc | hc
    · rw [if_pos hc, if_pos hc]
      simp
    · subst hc
      simp only [lt_self_iff_false, if_false]
      exact lexLt_append_eqlen xs ys r1 r2 hlen
    · rw [if_neg (lt_asymm hc), if_pos hc, if_neg (lt_asymm hc), if_pos hc, if_pos hc]
      simp

theorem isLeap_iff (y : Nat) : isLeap y = true ↔ (y % 4 = 0 ∧ y % 100 ≠ 0) ∨ y % 400 = 0 := by
  simp [isLeap]

theorem dBY_succ (y : Nat) (hy : 1 ≤ y) :
    daysBeforeYear (y + 1) = daysBeforeYear y + 365 + (if isLeap y then 1 else 0) := by
  obtain ⟨z, rfl⟩ : ∃ z, y = z + 1 := ⟨y - 1, by omega⟩
  unfold daysBeforeYear
  simp only [Nat.add_sub_cancel]
  rw [Nat.succ_div, Nat.succ_div, Nat.succ_div]
  by_cases h : isLeap (z + 1) = true
  · have hp := (isLeap_iff _).mp h
    simp only [h, if_true]
    split_ifs <;> first | omega | exact absurd (by assumption) not_false
  · have hp : ¬((z + 1) % 4 = 0 ∧ (z + 1) % 100 ≠ 0) ∧ ¬(z + 1) % 400 = 0 := by
      constructor
      · intro hh; exact h ((isLeap_iff _).mpr (Or.inl hh))
      · intro hh; exact h ((isLeap_iff _).mpr (Or.inr hh))
    simp only [h, if_false]
    split_ifs <;> first | omega | exact absurd (by assumption) not_false

theorem dBY_le_succ (y : Nat) : daysBeforeYear y ≤ daysBeforeYear (y + 1) := by
  rcases Nat.eq_zero_or_pos y with h | h
  · subst h
    simp [daysBeforeYear]
  · rw [dBY_succ y h]
    omega

theorem dBY_mono (y1 y2 : Nat) (h : y1 ≤ y2) : daysBeforeYear y1 ≤ daysBeforeYear y2 := by
  induction y2 with
  | zero =>
    have : y1 = 0 := by omega
    subst this
    exact le_refl _
  | succ n ih =>
    rcases Nat.lt_or_ge y1 (n + 1) with h2 | h2
    · exact le_trans (ih (by omega)) (dBY_le_succ n)
    · have : y1 = n + 1 := by omega
      subst this
      exact le_refl _

theorem daysInMonth_pos (y m : Nat) : 1 ≤ daysInMonth y m := by
  unfold daysInMonth
  split <;> first | (split_ifs <;> omega) | omega

theorem daysInMonth_le_31 (y m : Nat) : daysInMonth y m ≤ 31 := by
  unfold daysInMonth
  split <;> first | (split_ifs <;> omega) | omega

theorem dBM_succ (y m : Nat) (hm : 1 ≤ m) :
    daysBeforeMonth y (m + 1) = daysBeforeMonth y m + daysInMonth y m := by
  match m, hm with
  | Nat.succ k, _ => rfl

theorem dBM_le_of_lt (y : Nat) :
    ∀ m2 m1, 1 ≤ m1 → m1 < m2 →
      daysBeforeMonth y m1 + daysInMonth y m1 ≤ daysBeforeMonth y m2 := by
  intro m2
  induction m2 with
  | zero => intro m1 h1 h2; omega
  | succ n ih =>
    intro m1 h1 h2
    rcases Nat.lt_or_ge m1 n with h3 | h3
    · have step : daysBeforeMonth y n ≤ daysBeforeMonth y (n + 1) := by
        rw [dBM_succ y n (by omega)]
        omega
      exact le_trans (ih m1 h1 h3) step
    · have : m1 = n := by omega
      subst this
      rw [dBM_succ y m1 h1]

theorem dBM_day_bound (y m d : Nat) (h1 : 1 ≤ m) (h2 : m ≤ 12)
    (h3 : d ≤ daysInMonth y m) :
    daysBeforeMonth y m + d ≤ 365 + (if isLeap y then 1 else 0) := by
  cases hL : isLeap y <;>
    (interval_cases m <;> simp_all [daysBeforeMonth, daysInMonth] <;> omega)

theorem toOrdinal_lt_of_dateLt (a b : Date) (ha : a.Valid) (hb : b.Valid)
    (h : DateLt a b) : toOrdinal a < toOrdinal b := by
  obtain ⟨ha1, ha2, ha3, ha4, ha5, ha6⟩ := ha
  obtain ⟨hb1, hb2, hb3, hb4, hb5, hb6⟩ := hb
  rcases h with h | ⟨hy, h⟩
  · have e1 : daysBeforeMonth a.year a.month + a.day ≤
        365 + (if isLeap a.year then 1 else 0) :=
      dBM_day_bound a.year a.month a.day ha3 ha4 ha6
    have e2 : daysBeforeYear (a.year + 1) =
        daysBeforeYear a.year + 365 + (if isLeap a.year then 1 else 0) :=
      dBY_succ a.year ha1
    have e3 : daysBeforeYear (a.year + 1) ≤ daysBeforeYear b.year :=
      dBY_mono _ _ (by omega)
    unfold toOrdinal
    omega
  · rcases h with h | ⟨hm, h⟩
    · have e1 : daysBeforeMonth b.year a.month + daysInMonth b.year a.month ≤
          daysBeforeMonth b.year b.month :=
        dBM_le_of_lt b.year b.month a.month ha3 h
      rw [hy] at ha6
      unfold toOrdinal
      rw [hy]
      omega
    · unfold toOrdinal
      rw [hy, hm]
      omega

theorem dateLt_trichotomy (a b : Date) : DateLt a b ∨ a = b ∨ DateLt b a := by
  cases a
  cases b
  simp only [DateLt, Date.mk.injEq]
  omega

theorem toOrdinal_lt_iff (a b : Date) (ha : a.Valid) (hb : b.Valid) :
    toOrdinal a < toOrdinal b ↔ DateLt a b := by
  constructor
  · intro h
    rcases dateLt_trichotomy a b with h2 | h2 | h2
    · exact h2
    · subst h2
      exact absurd h (lt_irrefl _)
    · exact absurd (toOrdinal_lt_of_dateLt b a hb ha h2) (by omega)
  · exact toOrdinal_lt_of_dateLt a b ha hb

theorem lexLt_dateChars_iff (a b : Date) (ha : a.Valid) (hb : b.Valid) :
    lexLt (dateChars a) (dateChars b) = true ↔ DateLt a b := by
  obtain ⟨ha1, ha2, ha3, ha4, ha5, ha6⟩ := ha
  obtain ⟨hb1, hb2, hb3, hb4, hb5, hb6⟩ := hb
  have hdash : ∀ u v : List Char, lexLt ('-' :: u) ('-' :: v) = lexLt u v := by
    intro u v
    rw [lexLt, if_neg (lt_irrefl _), if_neg (lt_irrefl _)]
  have hmd : a.day ≤ 99 := le_trans ha6 (le_trans (daysInMonth_le_31 _ _) (by omega))
  have hbd : b.day ≤ 99 := le_trans hb6 (le_trans (daysInMonth_le_31 _ _) (by omega))
  have hy : lexLt (pad4 a.year) (pad4 b.year) = true ↔ a.year < b.year :=
    lexLt_pad4_iff _ _ ha2 hb2
  have hy2 : lexLt (pad4 b.year) (pad4 a.year) = true ↔ b.year < a.year :=
    lexLt_pad4_iff _ _ hb2 ha2
  have hm : lexLt (pad2 a.month) (pad2 b.month) = true ↔ a.month < b.month :=
    lexLt_pad2_iff _ _ (by omega) (by omega)
  have hm2 : lexLt (pad2 b.month) (pad2 a.month) = true ↔ b.month < a.month :=
    lexLt_pad2_iff _ _ (by omega) (by omega)
  have hd : lexLt (pad2 a.day) (pad2 b.day) = true ↔ a.day < b.day :=
    lexLt_pad2_iff _ _ hmd hbd
  rw [dateChars, dateChars,
    lexLt_append_eqlen (pad4 a.year) (pad4 b.year)
      ('-' :: (pad2 a.month ++ '-' :: pad2 a.day))
      ('-' :: (pad2 b.month ++ '-' :: pad2 b.day)) rfl,
    hdash,
    lexLt_append_eqlen (pad2 a.month) (pad2 b.month)
      ('-' :: pad2 a.day) ('-' :: pad2 b.day) rfl,
    hdash]
  simp only [Bool.or_eq_true, Bool.and_eq_true, Bool.not_eq_true']
  rw [DateLt]
  constructor
  · rintro (h | ⟨hne, rest⟩)
    · exact Or.inl (hy.mp h)
    · have hyle : a.year ≤ b.year := by
        have hnlt : ¬b.year < a.year := by
          intro hh
          rw [hy2.mpr hh] at hne
          exact absurd hne (by simp)
        omega
      rcases Nat.lt_or_ge a.year b.year with hlt | hge
      · exact Or.inl hlt
      · have hyeq : a.year = b.year := by omega
        rcases rest with h | ⟨hne2, h⟩
        · exact Or.inr ⟨hyeq, Or.inl (hm.mp h)⟩
        · have hmle : a.month ≤ b.month := by
            have hnlt2 : ¬b.month < a.month := by
              intro hh
              rw [hm2.mpr hh] at hne2
              exact absurd hne2 (by simp)
            omega
          rcases Nat.lt_or_ge a.month b.month with hlt2 | hge2
          · exact Or.inr ⟨hyeq, Or.inl hlt2⟩
          · have hmeq : a.month = b.month := by omega
            exact Or.inr ⟨hyeq, Or.inr ⟨hmeq, hd.mp h⟩⟩
  · rintro (h | ⟨hye, (h | ⟨hme, h⟩)⟩)
    · exact Or.inl (hy.mpr h)
    · refine Or.inr ⟨?_, Or.inl (hm.mpr h)⟩
      cases hc : lexLt (pad4 b.year) (pad4 a.year)
      · rfl
      · exact absurd (hy2.mp hc) (by omega)
    · refine Or.inr ⟨?_, Or.inr ⟨?_, hd.mpr h⟩⟩
      · cases hc : lexLt (pad4 b.year) (pad4 a.year)
        · rfl
        · exact absurd (hy2.mp hc) (by omega)
      · cases hc : lexLt (pad2 b.month) (pad2 a.month)
        · rfl
        · exact absurd (hm2.mp hc) (by omega)

theorem digitsToNat_aux_lt (l : List Char) :
    ∀ a : Nat, (∀ c ∈ l, isDigitCh c = true) →
      l.foldl (fun a c => 10 * a + (c.toNat - 48)) a < 10 ^ l.length * (a + 1) := by
  induction l with
  | nil => intro a _; simp
  | cons c rest ih =>
    intro a h
    have hc : c.toNat - 48 ≤ 9 := by
      have := h c (by simp)
      simp only [isDigitCh, Bool.and_eq_true, decide_eq_true_eq] at this
      omega
    have step := ih (10 * a + (c.toNat - 48)) (fun x hx => h x (by simp [hx]))
    rw [List.foldl_cons]
    calc (rest.foldl (fun a c => 10 * a + (c.toNat - 48)) (10 * a + (c.toNat - 48)))
        < 10 ^ rest.length * (10 * a + (c.toNat - 48) + 1) := step
      _ ≤ 10 ^ rest.length * (10 * (a + 1)) := Nat.mul_le_mul_left _ (by omega)
      _ = 10 ^ (c :: rest).length * (a + 1) := by
          rw [List.length_cons]
          ring

theorem digitsToNat_lt (l : List Char) (h : ∀ c ∈ l, isDigitCh c = true) :
    digitsToNat l < 10 ^ l.length := by
  have := digitsToNat_aux_lt l 0 h
  simpa [digitsToNat] using this

theorem parseDate_valid (s : String) (d : Date) (h : parseDate s = some d) :
    d.Valid := by
  unfold parseDate at h
  split at h
  case h_2 => exact absurd h (by simp)
  case h_1 ys ms ds heq =>
    by_cases hb1 : ((ys.length != 4) || !ys.all isDigitCh) = true
    · rw [if_pos hb1] at h
      exact absurd h (by simp)
    · rw [if_neg hb1] at h
      by_cases hb2 : (decide (ms.length < 1) || decide (2 < ms.length) || !ms.all isDigitCh) = true
      · rw [if_pos hb2] at h
        exact absurd h (by simp)
      · rw [if_neg hb2] at h
        by_cases hb3 : (decide (ds.length < 1) || decide (2 < ds.length) || !ds.all isDigitCh) = true
        · rw [if_pos hb3] at h
          exact absurd h (by simp)
        · rw [if_neg hb3] at h
          have h1b : ys.length = 4 := by
            by_contra hh
            exact hb1 (by simp [hh])
          have h1c : ys.all isDigitCh = true := by
            cases hc : ys.all isDigitCh
            · exact absurd (by simp [hc]) hb1
            · rfl
          have hy9999 : digitsToNat ys ≤ 9999 := by
            have hlt : digitsToNat ys < 10 ^ ys.length :=
              digitsToNat_lt ys (fun c hc => List.all_eq_true.mp h1c c hc)
            rw [h1b] at hlt
            omega
          simp only at h
          split_ifs at h with h4
          · obtain ⟨g1, g2, g3, g4, g5⟩ := h4
            have hd : d = ⟨digitsToNat ys, digitsToNat ms, digitsToNat ds⟩ :=
              (Option.some.inj h).symm
            subst hd
            exact ⟨g1, hy9999, g2, g3, g4, g5⟩

theorem isCanonical_spec (s : String) (h : isCanonical s = true) :
    ∃ d, parseDate s = some d ∧ dateToString d = s ∧ d.Valid := by
  unfold isCanonical at h
  split at h
  case h_1 d heq => exact ⟨d, heq, by simpa using h, parseDate_valid s d heq⟩
  case h_2 => exact absurd h (by simp)

theorem ordOf_eq (s : String) (d : Date) (h : parseDate s = some d) :
    ordOf s = (toOrdinal d : Int) := by
  unfold ordOf
  rw [h]

theorem strle_iff_ordOf (s t : String) (hs : isCanonical s = true)
    (ht : isCanonical t = true) : strle s t ↔ ordOf s ≤ ordOf t := by
  obtain ⟨a, hpa, hsa, hva⟩ := isCanonical_spec s hs
  obtain ⟨b, hpb, htb, hvb⟩ := isCanonical_spec t ht
  rw [ordOf_eq s a hpa, ordOf_eq t b hpb]
  have hdt : t.data = dateChars b := by rw [← htb]; rfl
  have hds : s.data = dateChars a := by rw [← hsa]; rfl
  unfold strle
  rw [hdt, hds]
  constructor
  · intro h
    have h1 : ¬DateLt b a := by
      intro hh
      rw [(lexLt_dateChars_iff b a hvb hva).mpr hh] at h
      exact absurd h (by simp)
    have h2 : ¬(toOrdinal b < toOrdinal a) :=
      fun hh => h1 ((toOrdinal_lt_iff b a hvb hva).mp hh)
    have h3 : toOrdinal a ≤ toOrdinal b := by omega
    exact_mod_cast h3
  · intro h
    cases hc : lexLt (dateChars b) (dateChars a)
    · rfl
    · exfalso
      have h2 := (lexLt_dateChars_iff b a hvb hva).mp hc
      have h3 := toOrdinal_lt_of_dateLt b a hvb hva h2
      have h4 : (toOrdinal a : Int) ≤ (toOrdinal b : Int) := h
      omega

instance : IsTotal String dateOrderLe := ⟨fun s t => Int.le_total _ _⟩

instance : IsTrans String dateOrderLe := ⟨fun _ _ _ h1 h2 => le_trans h1 h2⟩

/-- C9: on key lists whose members are valid zero-padded ISO
`YYYY-MM-DD` strings, the lexicographic string sort `sortKeys` used by
`calculate_max_streak` produces exactly the same list as sorting the
keys chronologically by the dates they denote, so the scan visits days
in ascending calendar order. -/
theorem c9_string_sort_is_date_sort :
    ∀ l : List String, (∀ s ∈ l, isCanonical s = true) →
      sortKeys l = sortKeysByDate l := by
  intro l h
  have s1 : List.Sorted strle (sortKeys l) := List.sorted_insertionSort strle l
  have s2d : List.Sorted dateOrderLe (sortKeysByDate l) :=
    List.sorted_insertionSort dateOrderLe l
  have hmem : ∀ s ∈ sortKeysByDate l, isCanonical s = true := fun s hs =>
    h s ((List.perm_insertionSort dateOrderLe l).mem_iff.mp hs)
  have s2 : List.Sorted strle (sortKeysByDate l) := by
    refine List.Pairwise.imp_of_mem ?_ s2d
    intro a b ha hb hr
    exact (strle_iff_ordOf a b (hmem a ha) (hmem b hb)).mpr hr
  have hperm : List.Perm (sortKeys l) (sortKeysByDate l) :=
    (List.perm_insertionSort strle l).trans
      (List.perm_insertionSort dateOrderLe l).symm
  exact List.eq_of_perm_of_sorted hperm s1 s2

/-- C9 witness: the two sorts agree on a concrete canonical key list. -/
theorem c9_witness :
    sortKeys [("2024-01-10"), ("2024-01-02"), ("2023-12-31")] =
      sortKeysByDate [("2024-01-10"), ("2024-01-02"), ("2023-12-31")] :=
  c9_string_sort_is_date_sort [("2024-01-10"), ("2024-01-02"), ("2023-12-31")]
    (by decide)

instance : IsTotal Int intLe := ⟨Int.le_total⟩

instance : IsTrans Int intLe := ⟨fun _ _ _ h1 h2 => le_trans h1 h2⟩

instance : IsAntisymm Int intLe := ⟨fun _ _ h1 h2 => le_antisymm h1 h2⟩

theorem specGo_cons (o : Int) (rest : List Int) (p : Option Int) (c mx : Nat) :
    specGo (o :: rest) p c mx =
      specGo rest (some o)
        (match p with
          | some q => if o - q = 1 then c + 1 else 1
          | none => 1)
        (max mx (match p with
          | some q => if o - q = 1 then c + 1 else 1
          | none => 1)) := rfl

theorem lookupD_eq_of_mem (m : CMap) (k : String) (v : Nat)
    (hn : (List.map Prod.fst m).Nodup) (hm : (k, v) ∈ m) : lookupD m k = v := by
  induction m with
  | nil => simp at hm
  | cons e rest ih =>
    rcases List.mem_cons.mp hm with he | he
    · rw [← he]
      simp [lookupD]
    · have hn2 : (List.map Prod.fst rest).Nodup := by
        rw [List.map_cons] at hn
        exact (List.nodup_cons.mp hn).2
      have hne : ¬e.1 = k := by
        intro hh
        have hkm : k ∈ List.map Prod.fst rest := List.mem_map.mpr ⟨(k, v), he, rfl⟩
        rw [List.map_cons, hh] at hn
        exact (List.nodup_cons.mp hn).1 hkm
      simp [lookupD, hne, ih hn2 he]

theorem scan_eq_specGo (m : CMap) :
    ∀ (l : List String) (p : Option Int) (c x : Nat),
      (∀ s ∈ l, 0 < lookupD m s) → (∀ s ∈ l, isCanonical s = true) →
      maxStreakScan m l p c x = some (specGo (List.map ordOf l) p c x) := by
  intro l
  induction l with
  | nil => intro p c x _ _; rfl
  | cons s rest ih =>
    intro p c x h1 h2
    obtain ⟨d, hpd, _, _⟩ := isCanonical_spec s (h2 s (by simp))
    rw [maxStreakScan_cons, if_pos (h1 s (by simp)), hpd, List.map_cons,
      specGo_cons, ordOf_eq s d hpd]
    exact ih (some _) _ _ (fun t ht => h1 t (by simp [ht]))
      (fun t ht => h2 t (by simp [ht]))

theorem qualifyingOrds_eq (m : CMap)
    (hc : ∀ k ∈ List.map Prod.fst m, isCanonical k = true) :
    qualifyingOrds m =
      List.map (fun e => ordOf e.1) (m.filter (fun e => decide (0 < e.2))) := by
  induction m with
  | nil => rfl
  | cons e rest ih =>
    have hce : isCanonical e.1 = true := hc e.1 (by simp)
    obtain ⟨d, hpd, _, _⟩ := isCanonical_spec e.1 hce
    have ihh := ih (fun k hk => hc k (by simp [hk]))
    by_cases hp : 0 < e.2
    · rw [qualifyingOrds, List.filterMap_cons]
      simp only [if_pos hp, hpd, Option.map_some]
      rw [List.filter_cons_of_pos (by simpa using hp), List.map_cons,
        ordOf_eq e.1 d hpd]
      rw [qualifyingOrds] at ihh
      rw [ihh]
      rfl
    · rw [qualifyingOrds, List.filterMap_cons]
      simp only [if_neg hp]
      rw [List.filter_cons_of_neg (by simpa using hp)]
      rw [qualifyingOrds] at ihh
      rw [ihh]

theorem filtered_sorted_map_eq (m : CMap)
    (hn : (List.map Prod.fst m).Nodup)
    (hc : ∀ k ∈ List.map Prod.fst m, isCanonical k = true) :
    List.map ordOf ((sortKeys (List.map Prod.fst m)).filter
        (fun s => decide (0 < lookupD m s))) =
      List.insertionSort intLe (qualifyingOrds m) := by
  have sL : List.Sorted strle ((sortKeys (List.map Prod.fst m)).filter
      (fun s => decide (0 < lookupD m s))) :=
    List.Sorted.filter _ (List.sorted_insertionSort strle _)
  have memL : ∀ s ∈ (sortKeys (List.map Prod.fst m)).filter
      (fun s => decide (0 < lookupD m s)), isCanonical s = true := fun s hs =>
    hc s ((List.mem_insertionSort strle).mp (List.mem_of_mem_filter hs))
  have sLmap : List.Sorted intLe (List.map ordOf
      ((sortKeys (List.map Prod.fst m)).filter
        (fun s => decide (0 < lookupD m s)))) := by
    rw [List.Sorted, List.pairwise_map]
    refine List.Pairwise.imp_of_mem ?_ sL
    intro a b ha hb hr
    exact (strle_iff_ordOf a b (memL a ha) (memL b hb)).mp hr
  have sR : List.Sorted intLe (List.insertionSort intLe (qualifyingOrds m)) :=
    List.sorted_insertionSort intLe _
  have hfk : List.filter (fun s => decide (0 < lookupD m s)) (List.map Prod.fst m) =
      List.map Prod.fst (m.filter (fun e => decide (0 < e.2))) := by
    rw [List.filter_map]
    congr 1
    apply List.filter_congr
    intro e he
    have : lookupD m e.1 = e.2 := lookupD_eq_of_mem m e.1 e.2 hn (by simpa using he)
    simp [Function.comp, this]
  have hperm : List.Perm (List.map ordOf
      ((sortKeys (List.map Prod.fst m)).filter (fun s => decide (0 < lookupD m s))))
      (List.insertionSort intLe (qualifyingOrds m)) := by
    have p1 : List.Perm (sortKeys (List.map Prod.fst m)) (List.map Prod.fst m) :=
      List.perm_insertionSort strle _
    have p2 := (p1.filter (fun s => decide (0 < lookupD m s))).map ordOf
    rw [hfk, List.map_map] at p2
    have e2 : List.map (ordOf ∘ Prod.fst) (m.filter (fun e => decide (0 < e.2))) =
        qualifyingOrds m := by
      rw [qualifyingOrds_eq m hc]
      rfl
    rw [e2] at p2
    exact p2.trans (List.perm_insertionSort intLe _).symm
  exact List.eq_of_perm_of_sorted hperm sLmap sR

/-- C2: on any well-formed ContributionMap (distinct keys, each a valid
zero-padded ISO date string), `calculate_max_streak` returns exactly
the value described by the spec: keep only the dates present with
count > 0, sort them ascending chronologically, scan once extending
the running streak on exact next-day successors and resetting to 1
otherwise, and return the maximum observed (0 with no qualifying
dates); in particular {2024-01-01: 1, 2024-01-02: 1, 2024-01-03: 1,
2024-01-10: 1} gives 3, and a single isolated positive date gives 1. -/
theorem c2_max_streak_refines_spec :
    (∀ m : CMap, (List.map Prod.fst m).Nodup →
        (∀ k ∈ List.map Prod.fst m, isCanonical k = true) →
        calculate_max_streak m = some (maxStreakSpec m)) ∧
    calculate_max_streak
      [(("2024-01-01" : String), 1), (("2024-01-02" : String), 1),
        (("2024-01-03" : String), 1), (("2024-01-10" : String), 1)] = some 3 ∧
    calculate_max_streak [(("2020-05-05" : String), 7)] = some 1 := by
  refine ⟨?_, by decide, by decide⟩
  intro m hn hc
  rw [calculate_max_streak, maxStreakScan_filter]
  have h1 : ∀ s ∈ (sortKeys (List.map Prod.fst m)).filter
      (fun s => decide (0 < lookupD m s)), 0 < lookupD m s := fun s hs => by
    have := List.of_mem_filter hs
    simpa using this
  have h2 : ∀ s ∈ (sortKeys (List.map Prod.fst m)).filter
      (fun s => decide (0 < lookupD m s)), isCanonical s = true := fun s hs =>
    hc s ((List.mem_insertionSort strle).mp (List.mem_of_mem_filter hs))
  rw [scan_eq_specGo m _ none 0 0 h1 h2, filtered_sorted_map_eq m hn hc]
  rfl

/-- C2 witness: the refinement instantiated on the scenario map. -/
theorem c2_witness :
    calculate_max_streak
      [(("2024-01-01" : String), 1), (("2024-01-02" : String), 1),
        (("2024-01-03" : String), 1), (("2024-01-10" : String), 1)] =
      some (maxStreakSpec
        [(("2024-01-01" : String), 1), (("2024-01-02" : String), 1),
          (("2024-01-03" : String), 1), (("2024-01-10" : String), 1)]) :=
  c2_max_streak_refines_spec.1 _ (by decide) (by decide)
